import Mathlib

/-!
Verification of the doubly-linked deque from `src/bad_safe_deque.rs`
(`List<T>` over `Rc<RefCell<Node<T>>>`).

The Rust structure is embedded as an explicit heap: addresses are natural
numbers, the heap is an association list from addresses to `Node` records,
and the deque holds optional head/tail addresses plus a fresh-address
counter (`fresh`) used for allocation.  `Rc` links (`Link<T> =
Option<Rc<RefCell<Node<T>>>>`) become `Option Nat` fields.

Operations that can panic in Rust return `Option`: `none` models a panic.
Two panic sources exist in the source and both are modelled explicitly:

* `RefCell::borrow_mut` while another borrow of the *same* cell is alive.
  Within `pop_front`, `old_head.borrow_mut()` is a temporary whose guard
  lives for the whole `match` statement, so the inner
  `new_head.borrow_mut()` conflicts exactly when the two `Rc`s point to
  the same cell; the model checks that the two addresses differ.  All
  other `borrow_mut` calls in the source happen with no other view
  outstanding (the claims assume no peek view is held at call entry), so
  they always succeed and carry no check.
* `Rc::try_unwrap(old_head).ok().unwrap()` in `pop_front`/`pop_back`,
  which panics unless the local `Rc` is the sole owner, i.e. the strong
  count is exactly 1.  The model computes whether any other reference
  (the deque's `head`/`tail` field or any node's `next`/`prev` field)
  still designates the detached address (`soleOwner`).

Dangling-address dereferences (`hlookup` returning `none` where Rust
would follow a live `Rc`) also map to `none`; they are unreachable from
states satisfying the representation invariant `Models`.
-/

namespace BadSafeDeque

/-- `Node<T>`: element plus optional `next` and `prev` links (addresses). -/
structure Node (α : Type) where
  elem : α
  next : Option Nat
  prev : Option Nat
deriving DecidableEq, Repr

/-- The store of allocated nodes: address ↦ node. -/
abbrev Heap (α : Type) : Type := List (Nat × Node α)

/-- Look an address up in the heap. -/
def hlookup : Heap α → Nat → Option (Node α)
  | [], _ => none
  | (k, n) :: h, a => if k = a then some n else hlookup h a

/-- Update the node stored at address `a` (no-op when absent). -/
def hupdate : Heap α → Nat → (Node α → Node α) → Heap α
  | [], _, _ => []
  | (k, n) :: h, a, f => (if k = a then (k, f n) else (k, n)) :: hupdate h a f

/-- Free the node stored at address `a`. -/
def hremove : Heap α → Nat → Heap α
  | [], _ => []
  | (k, n) :: h, a => if k = a then hremove h a else (k, n) :: hremove h a

/-- `List<T>` from the source: `head` and `tail` links into the heap.
`fresh` is the allocator: every address ever handed out is `< fresh`. -/
structure DList (α : Type) where
  heap : Heap α
  head : Option Nat
  tail : Option Nat
  fresh : Nat
deriving DecidableEq

/-- `List::new()`. -/
def new : DList α := ⟨[], none, none, 0⟩

/-- `List::push_front(elem)`.  Allocates a node at the fresh address; in
the non-empty case sets the old head's `prev` to the new node and the new
node's `next` to the old head (both `borrow_mut` calls run with no other
view outstanding, hence succeed). -/
def push_front (s : DList α) (elem : α) : Option (DList α) :=
  let a := s.fresh
  match s.head with
  | some old_head =>
    match hlookup s.heap old_head with
    | none => none
    | some _ =>
      some { heap := (a, { elem := elem, next := some old_head, prev := none }) ::
                     hupdate s.heap old_head (fun n => { n with prev := some a }),
             head := some a, tail := s.tail, fresh := s.fresh + 1 }
  | none =>
    some { heap := (a, { elem := elem, next := none, prev := none }) :: s.heap,
           head := some a, tail := some a, fresh := s.fresh + 1 }

/-- `List::push_back(elem)`, the mirror of `push_front`. -/
def push_back (s : DList α) (elem : α) : Option (DList α) :=
  let a := s.fresh
  match s.tail with
  | some old_tail =>
    match hlookup s.heap old_tail with
    | none => none
    | some _ =>
      some { heap := (a, { elem := elem, next := none, prev := some old_tail }) ::
                     hupdate s.heap old_tail (fun n => { n with next := some a }),
             head := s.head, tail := some a, fresh := s.fresh + 1 }
  | none =>
    some { heap := (a, { elem := elem, next := none, prev := none }) :: s.heap,
           head := some a, tail := some a, fresh := s.fresh + 1 }

/-- Does node `n` hold a reference to address `a`? -/
def pointsTo (n : Node α) (a : Nat) : Bool :=
  n.next == some a || n.prev == some a

/-- `Rc::try_unwrap` success condition for the detached node at `a`: no
reference other than the local binding—neither `head`, nor `tail`, nor
any node's `next`/`prev`—still designates `a`, so the strong count is 1. -/
def soleOwner (s : DList α) (a : Nat) : Bool :=
  s.head != some a && s.tail != some a && s.heap.all fun p => !(pointsTo p.2 a)

/-- `List::pop_front()`.  Returns `some (s, none)` on the empty deque,
`some (s, some x)` after a successful pop, and `none` when the code
would panic: either `new_head.borrow_mut()` while `old_head`'s guard is
still alive on the same cell, or `Rc::try_unwrap(..).ok().unwrap()` on a
node that is not uniquely owned. -/
def pop_front (s : DList α) : Option (DList α × Option α) :=
  match s.head with
  | none => some (s, none)
  | some oh_a =>
    match hlookup s.heap oh_a with
    | none => none
    | some oh =>
      let heap1 := hupdate s.heap oh_a fun n => { n with next := none }
      match oh.next with
      | some nh_a =>
        if nh_a = oh_a then none else
        match hlookup heap1 nh_a with
        | none => none
        | some _ =>
          let s2 : DList α := { heap := hupdate heap1 nh_a fun n => { n with prev := none },
                                head := some nh_a, tail := s.tail, fresh := s.fresh }
          if soleOwner s2 oh_a then
            some ({ s2 with heap := hremove s2.heap oh_a }, some oh.elem)
          else none
      | none =>
        let s2 : DList α := { heap := heap1, head := none, tail := none, fresh := s.fresh }
        if soleOwner s2 oh_a then
          some ({ s2 with heap := hremove s2.heap oh_a }, some oh.elem)
        else none

/-- `List::pop_back()`, the mirror of `pop_front` over `prev`/`tail`. -/
def pop_back (s : DList α) : Option (DList α × Option α) :=
  match s.tail with
  | none => some (s, none)
  | some ot_a =>
    match hlookup s.heap ot_a with
    | none => none
    | some ot =>
      let heap1 := hupdate s.heap ot_a fun n => { n with prev := none }
      match ot.prev with
      | some nt_a =>
        if nt_a = ot_a then none else
        match hlookup heap1 nt_a with
        | none => none
        | some _ =>
          let s2 : DList α := { heap := hupdate heap1 nt_a fun n => { n with next := none },
                                head := s.head, tail := some nt_a, fresh := s.fresh }
          if soleOwner s2 ot_a then
            some ({ s2 with heap := hremove s2.heap ot_a }, some ot.elem)
          else none
      | none =>
        let s2 : DList α := { heap := heap1, head := none, tail := none, fresh := s.fresh }
        if soleOwner s2 ot_a then
          some ({ s2 with heap := hremove s2.heap ot_a }, some ot.elem)
        else none

/-- `List::peek_front()`: takes `&self`, so the state passes through
unchanged; the second component is the value seen through the returned
`Ref<T>` (the head element), `none` on the empty deque. -/
def peek_front (s : DList α) : DList α × Option α :=
  (s, s.head.bind fun a => (hlookup s.heap a).map fun n => n.elem)

/-- `List::peek_back()`: mirror of `peek_front` on `tail`. -/
def peek_back (s : DList α) : DList α × Option α :=
  (s, s.tail.bind fun a => (hlookup s.heap a).map fun n => n.elem)

/-- `List::peek_front_mut()`: grants a write view onto the head node's
element; the view is modelled by the address it targets. -/
def peek_front_mut (s : DList α) : DList α × Option Nat :=
  (s, s.head)

/-- `List::peek_back_mut()`: mirror of `peek_front_mut` on `tail`. -/
def peek_back_mut (s : DList α) : DList α × Option Nat :=
  (s, s.tail)

/-- Writing a value through a `RefMut<T>` view targeting the element at
address `a` (plain store through the exclusive reference). -/
def write_view (s : DList α) (a : Nat) (w : α) : DList α :=
  { s with heap := hupdate s.heap a fun n => { n with elem := w } }

/-- The consuming iterator `IntoIter<T>(List<T>)`. -/
structure IntoIter (α : Type) where
  list : DList α
deriving DecidableEq

/-- `List::into_iter(self)`. -/
def into_iter (s : DList α) : IntoIter α := ⟨s⟩

/-- `Iterator::next` for `IntoIter`: `self.0.pop_front()`. -/
def IntoIter.next (it : IntoIter α) : Option (IntoIter α × Option α) :=
  (pop_front it.list).map fun p => (⟨p.1⟩, p.2)

/-- `DoubleEndedIterator::next_back` for `IntoIter`: `self.0.pop_back()`. -/
def IntoIter.next_back (it : IntoIter α) : Option (IntoIter α × Option α) :=
  (pop_back it.list).map fun p => (⟨p.1⟩, p.2)

/-- `impl Drop for List`: `while self.pop_front().is_some() {}`, run with
explicit fuel; `none` means the fuel ran out (or a pop panicked). -/
def drop_fuel : Nat → DList α → Option (DList α)
  | 0, _ => none
  | f + 1, s =>
    (pop_front s).bind fun p =>
      match p.2 with
      | some _ => drop_fuel f p.1
      | none => some p.1

/-- Run `pop_front` `n` times, collecting the results in order. -/
def popFrontN (s : DList α) : Nat → Option (DList α × List (Option α))
  | 0 => some (s, [])
  | n + 1 =>
    (pop_front s).bind fun p =>
      (popFrontN p.1 n).map fun q => (q.1, p.2 :: q.2)

/-- Run `pop_back` `n` times, collecting the results in order. -/
def popBackN (s : DList α) : Nat → Option (DList α × List (Option α))
  | 0 => some (s, [])
  | n + 1 =>
    (pop_back s).bind fun p =>
      (popBackN p.1 n).map fun q => (q.1, p.2 :: q.2)

/-- Push a whole list with `push_front`, first element first. -/
def pushFrontList (s : DList α) : List α → Option (DList α)
  | [] => some s
  | v :: vs => (push_front s v).bind fun s' => pushFrontList s' vs

/-- Push a whole list with `push_back`, first element first. -/
def pushBackList (s : DList α) : List α → Option (DList α)
  | [] => some s
  | v :: vs => (push_back s v).bind fun s' => pushBackList s' vs

/-- Drain steps: `true` pops at the front, `false` at the back. -/
def drain (s : DList α) : List Bool → Option (DList α × List (Option α))
  | [] => some (s, [])
  | e :: es =>
    ((if e then pop_front s else pop_back s)).bind fun p =>
      (drain p.1 es).map fun q => (q.1, p.2 :: q.2)

/-- `dllSeg h p c d q as l`: starting at link `c` whose node's `prev`
must be `p`, the heap `h` holds a doubly-linked chain through the
addresses `as` carrying the elements `l`; the last node of the chain is
designated by `d` and its `next` is `q` (for an empty chain, `c = q` and
`d = p`).  The full deque invariant is
`dllSeg heap none head tail none as l`: walking `next` from `head`
reaches `tail`, walking `prev` from `tail` reaches `head`, `head`'s
`prev` is absent and `tail`'s `next` is absent. -/
def dllSeg (h : Heap α) : Option Nat → Option Nat → Option Nat → Option Nat → List Nat → List α → Prop
  | p, c, d, q, [], [] => c = q ∧ d = p
  | p, c, d, q, a :: as, x :: l =>
      c = some a ∧ ∃ n : Node α, hlookup h a = some n ∧ n.elem = x ∧ n.prev = p ∧
        dllSeg h (some a) n.next d q as l
  | _, _, _, _, _, _ => False

/-- `Models s l`: the deque state `s` represents the abstract sequence
`l`.  There is an address list `as` (the nodes front to back) such that
the heap links them as a doubly-linked chain from `head` to `tail`
(`head`'s `prev` and `tail`'s `next` absent), no address repeats (no
cycle, each node visited exactly once), the live heap addresses are
exactly the chain (`head = none` iff `tail = none` iff empty follows),
every address is below the allocation counter, and heap keys are
unambiguous. -/
def Models (s : DList α) (l : List α) : Prop :=
  ∃ as : List Nat,
    dllSeg s.heap none s.head s.tail none as l ∧
    as.Nodup ∧
    (∀ a, (hlookup s.heap a).isSome ↔ a ∈ as) ∧
    (∀ a ∈ as, a < s.fresh) ∧
    (s.heap.map Prod.fst).Nodup

/-- Swap the two links of a node. -/
def mirrorNode (n : Node α) : Node α :=
  { elem := n.elem, next := n.prev, prev := n.next }

/-- Mirror every node of a heap. -/
def mmap (h : Heap α) : Heap α :=
  h.map fun p => (p.1, mirrorNode p.2)

/-- The mirror image of a deque state: front and back exchanged. -/
def mirror (s : DList α) : DList α :=
  { heap := mmap s.heap, head := s.tail, tail := s.head, fresh := s.fresh }

/-- A concrete one-element deque (the state after `push_front 1` on the
empty deque), used to instantiate the general theorems. -/
def exampleOne : DList ℕ := ⟨[(0, ⟨1, none, none⟩)], some 0, some 0, 1⟩

/-- Programs over the deque API, for running concrete scenarios. -/
inductive DequeOp : Type where
  | pf : ℕ → DequeOp
  | pb : ℕ → DequeOp
  | popf : DequeOp
  | popb : DequeOp

/-- Run a program, collecting the results of the pop operations in order. -/
def runOps : DList ℕ → List DequeOp → Option (DList ℕ × List (Option ℕ))
  | s, [] => some (s, [])
  | s, DequeOp.pf v :: ops => (push_front s v).bind fun s' => runOps s' ops
  | s, DequeOp.pb v :: ops => (push_back s v).bind fun s' => runOps s' ops
  | s, DequeOp.popf :: ops =>
    (pop_front s).bind fun p => (runOps p.1 ops).map fun q => (q.1, p.2 :: q.2)
  | s, DequeOp.popb :: ops =>
    (pop_back s).bind fun p => (runOps p.1 ops).map fun q => (q.1, p.2 :: q.2)

/-- The consuming-iterator scenario from the spec: `push_front 1`,
`push_front 2`, `push_front 3`, then `next`, `next_back`, `next`,
`next_back`, `next` on the consuming iterator. -/
def iterScenario : Option (List (Option ℕ)) :=
  (pushFrontList (new : DList ℕ) [1, 2, 3]).bind fun s =>
  (IntoIter.next (into_iter s)).bind fun p1 =>
  (IntoIter.next_back p1.1).bind fun p2 =>
  (IntoIter.next p2.1).bind fun p3 =>
  (IntoIter.next_back p3.1).bind fun p4 =>
  (IntoIter.next p4.1).map fun p5 =>
  [p1.2, p2.2, p3.2, p4.2, p5.2]

/-! ### Heap lemmas -/

theorem hlookup_cons (k : Nat) (n : Node α) (h : Heap α) (b : Nat) :
    hlookup ((k, n) :: h) b = if k = b then some n else hlookup h b := rfl

theorem hupdate_cons (k : Nat) (n : Node α) (h : Heap α) (a : Nat) (f : Node α → Node α) :
    hupdate ((k, n) :: h) a f = (if k = a then (k, f n) else (k, n)) :: hupdate h a f := rfl

theorem hremove_cons (k : Nat) (n : Node α) (h : Heap α) (a : Nat) :
    hremove ((k, n) :: h) a = if k = a then hremove h a else (k, n) :: hremove h a := rfl

theorem hlookup_hupdate (h : Heap α) (a b : Nat) (f : Node α → Node α) :
    hlookup (hupdate h a f) b = if b = a then (hlookup h b).map f else hlookup h b := by
  induction h with
  | nil =>
    show (none : Option (Node α)) = if b = a then Option.map f none else none
    by_cases hba : b = a
    · rw [if_pos hba]; rfl
    · rw [if_neg hba]
  | cons p h ih =>
    obtain ⟨k, n⟩ := p
    rw [hupdate_cons]
    by_cases hka : k = a
    · rw [if_pos hka, hlookup_cons, hlookup_cons]
      by_cases hkb : k = b
      · have hba : b = a := by rw [← hkb, hka]
        rw [if_pos hkb, if_pos hkb, if_pos hba]
        rfl
      · rw [if_neg hkb, if_neg hkb, ih]
    · rw [if_neg hka, hlookup_cons, hlookup_cons]
      by_cases hkb : k = b
      · have hba : ¬ b = a := fun hh => hka (hkb.trans hh)
        rw [if_pos hkb, if_pos hkb, if_neg hba]
      · rw [if_neg hkb, if_neg hkb, ih]

theorem hlookup_hremove (h : Heap α) (a b : Nat) :
    hlookup (hremove h a) b = if b = a then none else hlookup h b := by
  induction h with
  | nil =>
    show (none : Option (Node α)) = if b = a then none else none
    by_cases hba : b = a
    · rw [if_pos hba]
    · rw [if_neg hba]
  | cons p h ih =>
    obtain ⟨k, n⟩ := p
    rw [hremove_cons]
    by_cases hka : k = a
    · rw [if_pos hka, ih, hlookup_cons]
      by_cases hba : b = a
      · rw [if_pos hba, if_pos hba]
      · have hkb : ¬ k = b := fun hh => hba (by rw [← hh, hka])
        rw [if_neg hba, if_neg hba, if_neg hkb]
    · rw [if_neg hka, hlookup_cons, hlookup_cons, ih]
      by_cases hkb : k = b
      · have hba : ¬ b = a := fun hh => hka (hkb.trans hh)
        rw [if_pos hkb, if_pos hkb, if_neg hba]
      · rw [if_neg hkb, if_neg hkb]

theorem hupdate_keys (h : Heap α) (a : Nat) (f : Node α → Node α) :
    (hupdate h a f).map Prod.fst = h.map Prod.fst := by
  induction h with
  | nil => rfl
  | cons p h ih =>
    obtain ⟨k, n⟩ := p
    rw [hupdate_cons]
    by_cases hka : k = a
    · rw [if_pos hka, List.map_cons, List.map_cons, ih]
    · rw [if_neg hka, List.map_cons, List.map_cons, ih]

theorem hremove_keys_subset (h : Heap α) (a b : Nat)
    (hb : b ∈ (hremove h a).map Prod.fst) : b ∈ h.map Prod.fst := by
  induction h with
  | nil => exact absurd hb (by simp [hremove])
  | cons p h ih =>
    obtain ⟨k, n⟩ := p
    rw [hremove_cons] at hb
    by_cases hka : k = a
    · rw [if_pos hka] at hb
      exact List.mem_cons_of_mem _ (ih hb)
    · rw [if_neg hka, List.map_cons] at hb
      rcases List.mem_cons.mp hb with hb | hb
      · exact List.mem_cons.mpr (Or.inl hb)
      · exact List.mem_cons_of_mem _ (ih hb)

theorem hremove_keys_nodup (h : Heap α) (a : Nat)
    (hnd : (h.map Prod.fst).Nodup) : ((hremove h a).map Prod.fst).Nodup := by
  induction h with
  | nil => exact hnd
  | cons p h ih =>
    obtain ⟨k, n⟩ := p
    rw [List.map_cons, List.nodup_cons] at hnd
    rw [hremove_cons]
    by_cases hka : k = a
    · rw [if_pos hka]
      exact ih hnd.2
    · rw [if_neg hka, List.map_cons, List.nodup_cons]
      exact ⟨fun hmem => hnd.1 (hremove_keys_subset h a k hmem), ih hnd.2⟩

theorem hlookup_eq_none_iff (h : Heap α) (k : Nat) :
    hlookup h k = none ↔ k ∉ h.map Prod.fst := by
  induction h with
  | nil => simp [hlookup]
  | cons p h ih =>
    obtain ⟨k', n⟩ := p
    rw [hlookup_cons, List.map_cons]
    by_cases hk : k' = k
    · subst hk
      simp
    · have hk' : ¬ k = k' := fun hh => hk hh.symm
      rw [if_neg hk, ih]
      simp [hk']

theorem hlookup_of_mem (h : Heap α) (k : Nat) (n : Node α)
    (hmem : (k, n) ∈ h) (hnd : (h.map Prod.fst).Nodup) : hlookup h k = some n := by
  induction h with
  | nil => exact absurd hmem (List.not_mem_nil _)
  | cons p h ih =>
    obtain ⟨k', n'⟩ := p
    rw [List.map_cons, List.nodup_cons] at hnd
    rcases List.mem_cons.mp hmem with heq | htl
    · rw [Prod.mk.injEq] at heq
      obtain ⟨h1, h2⟩ := heq
      subst h1
      subst h2
      rw [hlookup_cons, if_pos rfl]
    · have hk : ¬ k' = k := by
        intro hkk
        subst hkk
        exact hnd.1 (List.mem_map.mpr ⟨(k', n), htl, rfl⟩)
      rw [hlookup_cons, if_neg hk]
      exact ih htl hnd.2

/-! ### The doubly-linked chain predicate -/

theorem dllSeg_nil_nil (h : Heap α) (p c d q : Option Nat) :
    dllSeg h p c d q [] [] ↔ c = q ∧ d = p := Iff.rfl

theorem dllSeg_cons_cons (h : Heap α) (p c d q : Option Nat) (a : Nat) (as : List Nat)
    (x : α) (l : List α) :
    dllSeg h p c d q (a :: as) (x :: l) ↔
      c = some a ∧ ∃ n : Node α, hlookup h a = some n ∧ n.elem = x ∧ n.prev = p ∧
        dllSeg h (some a) n.next d q as l := Iff.rfl

theorem dllSeg_nil_cons (h : Heap α) (p c d q : Option Nat) (x : α) (l : List α) :
    ¬ dllSeg h p c d q [] (x :: l) := fun hf => hf

theorem dllSeg_cons_nil (h : Heap α) (p c d q : Option Nat) (a : Nat) (as : List Nat) :
    ¬ dllSeg h p c d q (a :: as) [] := fun hf => hf

/-- Heaps that agree on the chain's addresses support the same chain. -/
theorem dllSeg_frame (h h' : Heap α) (p c d q : Option Nat) (as : List Nat) (l : List α)
    (hagree : ∀ a ∈ as, hlookup h' a = hlookup h a)
    (hseg : dllSeg h p c d q as l) : dllSeg h' p c d q as l := by
  induction as generalizing p c l with
  | nil =>
    cases l with
    | nil => exact hseg
    | cons x l => exact absurd hseg (dllSeg_nil_cons _ _ _ _ _ _ _)
  | cons a as ih =>
    cases l with
    | nil => exact absurd hseg (dllSeg_cons_nil _ _ _ _ _ _ _)
    | cons x l =>
      obtain ⟨hc, n, hn, he, hp, hrest⟩ := hseg
      refine ⟨hc, n, ?_, he, hp, ?_⟩
      · rw [hagree a (List.mem_cons_self ..)]; exact hn
      · exact ih _ _ _ (fun b hb => hagree b (List.mem_cons_of_mem _ hb)) hrest

/-- A chain's two lists have the same length. -/
theorem dllSeg_length (h : Heap α) (p c d q : Option Nat) (as : List Nat) (l : List α)
    (hseg : dllSeg h p c d q as l) : as.length = l.length := by
  induction as generalizing p c l with
  | nil =>
    cases l with
    | nil => rfl
    | cons x l => exact absurd hseg (dllSeg_nil_cons _ _ _ _ _ _ _)
  | cons a as ih =>
    cases l with
    | nil => exact absurd hseg (dllSeg_cons_nil _ _ _ _ _ _ _)
    | cons x l =>
      obtain ⟨_, n, _, _, _, hrest⟩ := hseg
      simpa using ih _ _ _ hrest

/-- The exit marker of a non-empty chain designates a chain member. -/
theorem dllSeg_last_mem (h : Heap α) (p c d q : Option Nat) (as : List Nat) (l : List α)
    (hseg : dllSeg h p c d q as l) (hne : as ≠ []) : ∃ a ∈ as, d = some a := by
  induction as generalizing p c l with
  | nil => exact absurd rfl hne
  | cons a as ih =>
    cases l with
    | nil => exact absurd hseg (dllSeg_cons_nil _ _ _ _ _ _ _)
    | cons x l =>
      obtain ⟨hc, n, hn, he, hp, hrest⟩ := hseg
      cases as with
      | nil =>
        cases l with
        | nil => exact ⟨a, List.mem_cons_self .., hrest.2⟩
        | cons y l => exact absurd hrest (dllSeg_nil_cons _ _ _ _ _ _ _)
      | cons b as' =>
        obtain ⟨c', hc', hd⟩ := ih _ _ _ hrest (by simp)
        exact ⟨c', List.mem_cons_of_mem _ hc', hd⟩

/-- Every link held by a chain node targets the entry `p`, the exit `q`
or another chain member. -/
theorem dllSeg_links (h : Heap α) (p c d q : Option Nat) (as : List Nat) (l : List α)
    (hseg : dllSeg h p c d q as l) :
    ∀ a ∈ as, ∀ n : Node α, hlookup h a = some n →
      (∀ b, n.next = some b → (some b = q ∨ b ∈ as)) ∧
      (∀ b, n.prev = some b → (some b = p ∨ b ∈ as)) := by
  induction as generalizing p c l with
  | nil => intro a ha; simp at ha
  | cons a0 as ih =>
    cases l with
    | nil => exact absurd hseg (dllSeg_cons_nil _ _ _ _ _ _ _)
    | cons x l =>
      obtain ⟨hc, n0, hn0, he, hp, hrest⟩ := hseg
      intro a ha n hn
      rcases List.mem_cons.mp ha with rfl | ha
      · rw [hn0] at hn
        injection hn with hn
        subst hn
        constructor
        · intro b hb
          cases as with
          | nil =>
            cases l with
            | nil => exact Or.inl (by rw [← hb]; exact hrest.1)
            | cons y l => exact absurd hrest (dllSeg_nil_cons _ _ _ _ _ _ _)
          | cons a1 as' =>
            cases l with
            | nil => exact absurd hrest (dllSeg_cons_nil _ _ _ _ _ _ _)
            | cons y l =>
              obtain ⟨hc1, _⟩ := hrest
              rw [hb] at hc1
              injection hc1 with hc1
              exact Or.inr (by simp [hc1])
        · intro b hb
          exact Or.inl (by rw [← hp, hb])
      · obtain ⟨hnext, hprev⟩ := ih _ _ _ hrest a ha n hn
        constructor
        · intro b hb
          rcases hnext b hb with hq | hmem
          · exact Or.inl hq
          · exact Or.inr (List.mem_cons_of_mem _ hmem)
        · intro b hb
          rcases hprev b hb with hpa | hmem
          · injection hpa with hpa
            exact Or.inr (by simp [hpa])
          · exact Or.inr (List.mem_cons_of_mem _ hmem)

/-- Extending a chain with one node at its exit end. -/
theorem dllSeg_snoc (h : Heap α) (p c d : Option Nat) (a : Nat) (m : Node α) (x : α)
    (as : List Nat) (l : List α)
    (hseg : dllSeg h p c d (some a) as l)
    (hm : hlookup h a = some m) (hprev : m.prev = d) (helem : m.elem = x) :
    dllSeg h p c (some a) m.next (as ++ [a]) (l ++ [x]) := by
  induction as generalizing p c l with
  | nil =>
    cases l with
    | nil =>
      obtain ⟨hc, hd⟩ := hseg
      exact ⟨hc, m, hm, helem, by rw [hprev, hd], rfl, rfl⟩
    | cons y l => exact absurd hseg (dllSeg_nil_cons _ _ _ _ _ _ _)
  | cons b as ih =>
    cases l with
    | nil => exact absurd hseg (dllSeg_cons_nil _ _ _ _ _ _ _)
    | cons y l =>
      obtain ⟨hc, n, hn, he, hp, hrest⟩ := hseg
      exact ⟨hc, n, hn, he, hp, ih _ _ _ hrest⟩

/-! ### The representation invariant -/

/-! ### Mirror symmetry

`push_back`/`pop_back`/`peek_back` are the exact mirror images of the
front operations: swapping every node's `next` and `prev` and exchanging
`head` with `tail` turns one into the other.  This is proved below as
theorems about the definitions (which were each translated directly from
the Rust source), and used to transport the front lemmas to the back. -/

theorem mirrorNode_mirrorNode (n : Node α) : mirrorNode (mirrorNode n) = n := rfl

theorem mmap_cons (k : Nat) (n : Node α) (h : Heap α) :
    mmap ((k, n) :: h) = (k, mirrorNode n) :: mmap h := rfl

theorem mmap_mmap (h : Heap α) : mmap (mmap h) = h := by
  induction h with
  | nil => rfl
  | cons p h ih =>
    obtain ⟨k, n⟩ := p
    rw [mmap_cons, mmap_cons, mirrorNode_mirrorNode, ih]

theorem mirror_mirror (s : DList α) : mirror (mirror s) = s := by
  cases s with
  | mk heap head tail fresh => simp [mirror, mmap_mmap]

theorem hlookup_mmap (h : Heap α) (a : Nat) :
    hlookup (mmap h) a = (hlookup h a).map mirrorNode := by
  induction h with
  | nil => rfl
  | cons p h ih =>
    obtain ⟨k, n⟩ := p
    rw [mmap_cons, hlookup_cons, hlookup_cons]
    by_cases hk : k = a
    · rw [if_pos hk, if_pos hk]
      rfl
    · rw [if_neg hk, if_neg hk, ih]

theorem mmap_hupdate (h : Heap α) (a : Nat) (f : Node α → Node α) :
    mmap (hupdate h a f) = hupdate (mmap h) a fun n => mirrorNode (f (mirrorNode n)) := by
  induction h with
  | nil => rfl
  | cons p h ih =>
    obtain ⟨k, n⟩ := p
    by_cases hk : k = a
    · show mmap ((if k = a then (k, f n) else (k, n)) :: hupdate h a f) = _
      rw [if_pos hk]
      show (k, mirrorNode (f n)) :: mmap (hupdate h a f) =
        hupdate ((k, mirrorNode n) :: mmap h) a fun n => mirrorNode (f (mirrorNode n))
      rw [hupdate_cons, if_pos hk, mirrorNode_mirrorNode, ih]
    · show mmap ((if k = a then (k, f n) else (k, n)) :: hupdate h a f) = _
      rw [if_neg hk]
      show (k, mirrorNode n) :: mmap (hupdate h a f) =
        hupdate ((k, mirrorNode n) :: mmap h) a fun n => mirrorNode (f (mirrorNode n))
      rw [hupdate_cons, if_neg hk, ih]

theorem mmap_hremove (h : Heap α) (a : Nat) :
    mmap (hremove h a) = hremove (mmap h) a := by
  induction h with
  | nil => rfl
  | cons p h ih =>
    obtain ⟨k, n⟩ := p
    rw [hremove_cons, mmap_cons, hremove_cons]
    by_cases hk : k = a
    · rw [if_pos hk, if_pos hk, ih]
    · rw [if_neg hk, if_neg hk, mmap_cons, ih]

theorem mmap_keys (h : Heap α) : (mmap h).map Prod.fst = h.map Prod.fst := by
  induction h with
  | nil => rfl
  | cons p h ih =>
    obtain ⟨k, n⟩ := p
    rw [mmap_cons, List.map_cons, List.map_cons, ih]

theorem pointsTo_mirrorNode (n : Node α) (a : Nat) :
    pointsTo (mirrorNode n) a = pointsTo n a := by
  simp [pointsTo, mirrorNode, Bool.or_comm]

theorem all_mmap (h : Heap α) (a : Nat) :
    ((mmap h).all fun p => !(pointsTo p.2 a)) = h.all fun p => !(pointsTo p.2 a) := by
  induction h with
  | nil => rfl
  | cons p h ih =>
    obtain ⟨k, n⟩ := p
    rw [mmap_cons, List.all_cons, List.all_cons, ih,
        show pointsTo (k, mirrorNode n).2 a = pointsTo n a from pointsTo_mirrorNode n a]

theorem soleOwner_mirror (t : DList α) (a : Nat) :
    soleOwner (mirror t) a = soleOwner t a := by
  simp only [soleOwner, mirror]
  rw [all_mmap, Bool.and_comm (t.tail != some a) (t.head != some a)]

/-- Reversing a doubly-linked chain in the mirrored heap. -/
theorem dllSeg_reverse (h : Heap α) (p c d q : Option Nat) (as : List Nat) (l : List α)
    (hseg : dllSeg h p c d q as l) :
    dllSeg (mmap h) q d c p as.reverse l.reverse := by
  induction as generalizing p c l with
  | nil =>
    cases l with
    | nil => exact ⟨hseg.2, hseg.1⟩
    | cons x l => exact absurd hseg (dllSeg_nil_cons _ _ _ _ _ _ _)
  | cons a as ih =>
    cases l with
    | nil => exact absurd hseg (dllSeg_cons_nil _ _ _ _ _ _ _)
    | cons x l =>
      obtain ⟨hc, n, hn, he, hp, hrest⟩ := hseg
      have hrev := ih _ _ _ hrest
      have hmem : hlookup (mmap h) a = some (mirrorNode n) := by
        rw [hlookup_mmap, hn]
        rfl
      have hsnoc := dllSeg_snoc (mmap h) q d n.next a (mirrorNode n) x as.reverse l.reverse
        hrev hmem rfl he
      rw [List.reverse_cons, List.reverse_cons, hc]
      have hmn : (mirrorNode n).next = p := hp
      rw [← hmn]
      exact hsnoc

/-- The mirror image of a well-formed deque represents the reversed
sequence. -/
theorem models_mirror (s : DList α) (l : List α) (hm : Models s l) :
    Models (mirror s) l.reverse := by
  obtain ⟨as, hseg, hnd, hdom, hlt, hknd⟩ := hm
  refine ⟨as.reverse, ?_, ?_, ?_, ?_, ?_⟩
  · exact dllSeg_reverse _ _ _ _ _ _ _ hseg
  · exact List.nodup_reverse.mpr hnd
  · intro a
    show (hlookup (mmap s.heap) a).isSome ↔ a ∈ as.reverse
    rw [hlookup_mmap, List.mem_reverse]
    cases hl : hlookup s.heap a with
    | none => simpa [hl] using hdom a
    | some n => simpa [hl] using hdom a
  · intro a ha
    exact hlt a (List.mem_reverse.mp ha)
  · show ((mmap s.heap).map Prod.fst).Nodup
    rw [mmap_keys]
    exact hknd

theorem models_new : Models (new : DList α) [] := by
  refine ⟨[], ⟨rfl, rfl⟩, List.nodup_nil, ?_, ?_, List.nodup_nil⟩
  · intro a
    simp [new, hlookup]
  · intro a ha
    simp at ha

/-! ### Push lemmas -/

theorem dllSeg_none_inv (h : Heap α) (p d q : Option Nat) (as : List Nat) (l : List α)
    (hseg : dllSeg h p none d q as l) : as = [] ∧ l = [] ∧ none = q ∧ d = p := by
  cases as with
  | nil =>
    cases l with
    | nil => exact ⟨rfl, rfl, hseg.1, hseg.2⟩
    | cons x l => exact absurd hseg (dllSeg_nil_cons _ _ _ _ _ _ _)
  | cons a as =>
    cases l with
    | nil => exact absurd hseg (dllSeg_cons_nil _ _ _ _ _ _ _)
    | cons x l => exact absurd hseg.1 (by simp)

theorem isSome_hlookup_hupdate (h : Heap α) (a b : Nat) (f : Node α → Node α) :
    (hlookup (hupdate h a f) b).isSome = (hlookup h b).isSome := by
  rw [hlookup_hupdate]
  by_cases hba : b = a
  · rw [if_pos hba]
    cases hlookup h b <;> rfl
  · rw [if_neg hba]

theorem push_front_models (s : DList α) (l : List α) (v : α) (hm : Models s l) :
    ∃ s', push_front s v = some s' ∧ Models s' (v :: l) := by
  obtain ⟨as, hseg, hnd, hdom, hlt, hknd⟩ := hm
  have hfreshout : ∀ b ∈ as, b ≠ s.fresh := fun b hb hbf => absurd (hlt b hb) (by rw [hbf]; exact lt_irrefl _)
  have hfresh_none : hlookup s.heap s.fresh = none := by
    cases hl : hlookup s.heap s.fresh with
    | none => rfl
    | some n =>
      have : s.fresh ∈ as := (hdom s.fresh).mp (by rw [hl]; rfl)
      exact absurd rfl (hfreshout s.fresh this)
  have hfresh_keys : s.fresh ∉ s.heap.map Prod.fst := (hlookup_eq_none_iff _ _).mp hfresh_none
  cases hh : s.head with
  | none =>
    rw [hh] at hseg
    obtain ⟨has, hl0, -, -⟩ := dllSeg_none_inv _ _ _ _ _ _ hseg
    subst has
    subst hl0
    refine ⟨_, by simp only [push_front, hh]; rfl, ?_⟩
    refine ⟨[s.fresh], ?_, by simp, ?_, ?_, ?_⟩
    · refine ⟨rfl, ⟨v, none, none⟩, ?_, rfl, rfl, rfl, rfl⟩
      rw [hlookup_cons, if_pos rfl]
    · intro b
      rw [hlookup_cons]
      by_cases hb : s.fresh = b
      · simp [hb]
      · have hbnone : hlookup s.heap b = none := by
          cases hl : hlookup s.heap b with
          | none => rfl
          | some n => exact absurd ((hdom b).mp (by rw [hl]; rfl)) (List.not_mem_nil b)
        have hbf : ¬ b = s.fresh := fun hq => hb hq.symm
        simp [hb, hbnone, hbf]
    · intro b hb
      rw [List.mem_singleton] at hb
      rw [hb]
      exact Nat.lt_succ_self _
    · rw [List.map_cons, List.nodup_cons]
      exact ⟨hfresh_keys, hknd⟩
  | some h0 =>
    rw [hh] at hseg
    cases as with
    | nil =>
      cases l with
      | nil => exact absurd hseg.1 (by simp)
      | cons x l => exact absurd hseg (dllSeg_nil_cons _ _ _ _ _ _ _)
    | cons a rest =>
      cases l with
      | nil => exact absurd hseg (dllSeg_cons_nil _ _ _ _ _ _ _)
      | cons x l' =>
        obtain ⟨hc, n0, hn0, he0, hp0, hrest⟩ := hseg
        have hha : s.head = some a := by rw [hh]; exact hc
        have hafresh : a ≠ s.fresh := hfreshout a (List.mem_cons_self ..)
        refine ⟨_, by simp only [push_front, hha, hn0]; rfl, ?_⟩
        refine ⟨s.fresh :: a :: rest, ?_, ?_, ?_, ?_, ?_⟩
        · refine ⟨rfl, ⟨v, some a, none⟩, by rw [hlookup_cons, if_pos rfl], rfl, rfl, ?_⟩
          refine ⟨rfl, { n0 with prev := some s.fresh }, ?_, he0, rfl, ?_⟩
          · rw [hlookup_cons, if_neg (fun hq : s.fresh = a => hafresh hq.symm),
                hlookup_hupdate, if_pos rfl, hn0]
            rfl
          · show dllSeg _ (some a) n0.next s.tail none rest l'
            refine dllSeg_frame s.heap _ _ _ _ _ _ _ ?_ hrest
            intro b hb
            have hbfresh : ¬ s.fresh = b :=
              fun hq => hfreshout b (List.mem_cons_of_mem _ hb) hq.symm
            have hba : ¬ b = a := by
              intro hq
              subst hq
              exact (List.nodup_cons.mp hnd).1 hb
            rw [hlookup_cons, if_neg hbfresh, hlookup_hupdate, if_neg hba]
        · rw [List.nodup_cons]
          exact ⟨fun hmem => hfreshout s.fresh hmem rfl, hnd⟩
        · intro b
          rw [hlookup_cons]
          by_cases hfb : s.fresh = b
          · simp [hfb]
          · have hbf : ¬ b = s.fresh := fun hq => hfb hq.symm
            rw [if_neg hfb, isSome_hlookup_hupdate, hdom b]
            simp [List.mem_cons, hbf]
        · intro b hb
          rcases List.mem_cons.mp hb with hb | hb
          · rw [hb]
            exact Nat.lt_succ_self _
          · exact Nat.lt_succ_of_lt (hlt b hb)
        · rw [List.map_cons, List.nodup_cons, hupdate_keys]
          exact ⟨hfresh_keys, hknd⟩

/-! ### Pop lemmas -/

theorem pointsTo_eq_false (n : Node α) (a : Nat)
    (h1 : n.next ≠ some a) (h2 : n.prev ≠ some a) : pointsTo n a = false := by
  simp [pointsTo, h1, h2]

theorem hlookup_mem (h : Heap α) (k : Nat) (n : Node α)
    (hl : hlookup h k = some n) : (k, n) ∈ h := by
  induction h with
  | nil => exact absurd hl (by rw [show hlookup ([] : Heap α) k = none from rfl]; simp)
  | cons p h ih =>
    obtain ⟨k', n'⟩ := p
    rw [hlookup_cons] at hl
    by_cases hk : k' = k
    · rw [if_pos hk] at hl
      injection hl with hl
      rw [← hl, hk]
      exact List.mem_cons_self ..
    · rw [if_neg hk] at hl
      exact List.mem_cons_of_mem _ (ih hl)

/-- Establish the `Rc::try_unwrap` success condition from per-node facts. -/
theorem soleOwner_eq_true (s : DList α) (a : Nat)
    (hh : s.head ≠ some a) (ht : s.tail ≠ some a)
    (hall : ∀ k n, hlookup s.heap k = some n → n.next ≠ some a ∧ n.prev ≠ some a)
    (hknd : (s.heap.map Prod.fst).Nodup) :
    soleOwner s a = true := by
  simp only [soleOwner, Bool.and_eq_true, bne_iff_ne, ne_eq, List.all_eq_true]
  refine ⟨⟨hh, ht⟩, ?_⟩
  intro p hp
  have hlk : hlookup s.heap p.1 = some p.2 := hlookup_of_mem _ _ _ (by cases p; exact hp) hknd
  obtain ⟨h1, h2⟩ := hall p.1 p.2 hlk
  rw [pointsTo_eq_false p.2 a h1 h2]
  rfl

theorem models_head_none (s : DList α) (l : List α) (hm : Models s l)
    (hh : s.head = none) : l = [] ∧ s.tail = none := by
  obtain ⟨as, hseg, -, -, -, -⟩ := hm
  rw [hh] at hseg
  obtain ⟨has, hl0, -, hd⟩ := dllSeg_none_inv _ _ _ _ _ _ hseg
  exact ⟨hl0, hd⟩

theorem pop_front_nil (s : DList α) (hm : Models s []) : pop_front s = some (s, none) := by
  obtain ⟨as, hseg, -, -, -, -⟩ := hm
  cases as with
  | nil =>
    have hh : s.head = none := hseg.1
    simp only [pop_front, hh]
  | cons a as => exact absurd hseg (dllSeg_cons_nil _ _ _ _ _ _ _)

theorem pop_front_models (s : DList α) (x : α) (l' : List α) (hm : Models s (x :: l')) :
    ∃ s', pop_front s = some (s', some x) ∧ Models s' l' := by
  obtain ⟨as, hseg, hnd, hdom, hlt, hknd⟩ := hm
  cases as with
  | nil => exact absurd hseg (dllSeg_nil_cons _ _ _ _ _ _ _)
  | cons a0 rest =>
    obtain ⟨hc, n0, hn0, he0, hp0, hrest⟩ := hseg
    have hdom_none : ∀ b, b ∉ a0 :: rest → hlookup s.heap b = none := by
      intro b hb
      cases hl : hlookup s.heap b with
      | none => rfl
      | some n => exact absurd ((hdom b).mp (by rw [hl]; rfl)) hb
    cases rest with
    | nil =>
      cases l' with
      | cons y l'' => exact absurd hrest (dllSeg_nil_cons _ _ _ _ _ _ _)
      | nil =>
        obtain ⟨hnext0, htail0⟩ := hrest
        have hso : soleOwner
            { heap := hupdate s.heap a0 fun n => { n with next := none },
              head := none, tail := none, fresh := s.fresh } a0 = true := by
          refine soleOwner_eq_true _ _ (by simp) (by simp) ?_ ?_
          · intro k n hkn
            rw [hlookup_hupdate] at hkn
            by_cases hk : k = a0
            · rw [if_pos hk, hk, hn0] at hkn
              injection hkn with hkn
              rw [← hkn]
              refine ⟨by simp, ?_⟩
              show n0.prev ≠ some a0
              rw [hp0]
              simp
            · rw [if_neg hk] at hkn
              have : k ∈ [a0] := (hdom k).mp (by rw [hkn]; rfl)
              rw [List.mem_singleton] at this
              exact absurd this hk
          · show ((hupdate s.heap a0 _).map Prod.fst).Nodup
            rw [hupdate_keys]
            exact hknd
        have hcomp : pop_front s = some
            ({ heap := hremove (hupdate s.heap a0 fun n => { n with next := none }) a0,
               head := none, tail := none, fresh := s.fresh }, some x) := by
          simp [pop_front, hc, hn0, hnext0, hso, he0]
        refine ⟨_, hcomp, ?_⟩
        refine ⟨[], ⟨rfl, rfl⟩, List.nodup_nil, ?_, ?_, ?_⟩
        · intro b
          show (hlookup (hremove (hupdate s.heap a0 _) a0) b).isSome = true ↔ b ∈ []
          rw [hlookup_hremove]
          by_cases hb : b = a0
          · simp [hb]
          · rw [if_neg hb, hlookup_hupdate, if_neg hb]
            rw [hdom_none b (by rw [List.mem_singleton]; exact hb)]
            simp
        · intro b hb
          exact absurd hb (List.not_mem_nil b)
        · show ((hremove (hupdate s.heap a0 _) a0).map Prod.fst).Nodup
          refine hremove_keys_nodup _ _ ?_
          rw [hupdate_keys]
          exact hknd
    | cons a1 rest' =>
      cases l' with
      | nil => exact absurd hrest (dllSeg_cons_nil _ _ _ _ _ _ _)
      | cons x1 l'' =>
        obtain ⟨hc1, n1, hn1, he1, hp1, hrest2⟩ := hrest
        have ha1 : a1 ≠ a0 := by
          intro hq
          exact (List.nodup_cons.mp hnd).1 (by rw [← hq]; exact List.mem_cons_self ..)
        have ha0notin : a0 ∉ a1 :: rest' := (List.nodup_cons.mp hnd).1
        have hnd1 : (a1 :: rest').Nodup := (List.nodup_cons.mp hnd).2
        have hlk1a1 : hlookup (hupdate s.heap a0 fun n => { n with next := none }) a1
            = some n1 := by
          rw [hlookup_hupdate, if_neg ha1, hn1]
        have hlk2 : ∀ b, b ≠ a0 → b ≠ a1 →
            hlookup (hupdate (hupdate s.heap a0 fun n => { n with next := none }) a1
              fun n => { n with prev := none }) b = hlookup s.heap b := by
          intro b hb0 hb1
          rw [hlookup_hupdate, if_neg hb1, hlookup_hupdate, if_neg hb0]
        have hlk2_a0 : hlookup (hupdate (hupdate s.heap a0 fun n => { n with next := none }) a1
            fun n => { n with prev := none }) a0 = some { n0 with next := none } := by
          rw [hlookup_hupdate, if_neg (fun hq : a0 = a1 => ha1 hq.symm), hlookup_hupdate,
              if_pos rfl, hn0]
          rfl
        have hlk2_a1 : hlookup (hupdate (hupdate s.heap a0 fun n => { n with next := none }) a1
            fun n => { n with prev := none }) a1 = some { n1 with prev := none } := by
          rw [hlookup_hupdate, if_pos rfl, hlk1a1]
          rfl
        have hkeys2 : (((hupdate (hupdate s.heap a0 fun n => { n with next := none }) a1
            fun n => { n with prev := none })).map Prod.fst).Nodup := by
          rw [hupdate_keys, hupdate_keys]
          exact hknd
        have hch : dllSeg (hupdate (hupdate s.heap a0 fun n => { n with next := none }) a1
              fun n => { n with prev := none })
            none (some a1) s.tail none (a1 :: rest') (x1 :: l'') := by
          refine ⟨rfl, { n1 with prev := none }, hlk2_a1, he1, rfl, ?_⟩
          show dllSeg _ (some a1) n1.next s.tail none rest' l''
          refine dllSeg_frame s.heap _ _ _ _ _ _ _ ?_ hrest2
          intro b hb
          have hb1 : b ≠ a1 := by
            intro hq
            exact (List.nodup_cons.mp hnd1).1 (by rw [← hq]; exact hb)
          have hb0 : b ≠ a0 := by
            intro hq
            exact ha0notin (by rw [← hq]; exact List.mem_cons_of_mem _ hb)
          exact hlk2 b hb0 hb1
        have htail_mem : ∃ at_ ∈ a1 :: rest', s.tail = some at_ :=
          dllSeg_last_mem _ _ _ _ _ _ _ hch (by simp)
        have hso : soleOwner
            { heap := hupdate (hupdate s.heap a0 fun n => { n with next := none }) a1
                fun n => { n with prev := none },
              head := some a1, tail := s.tail, fresh := s.fresh } a0 = true := by
          refine soleOwner_eq_true _ _ ?_ ?_ ?_ hkeys2
          · show some a1 ≠ some a0
            intro hq
            injection hq with hq
            exact ha1 hq
          · show s.tail ≠ some a0
            obtain ⟨at_, hat_, htl⟩ := htail_mem
            rw [htl]
            intro hq
            injection hq with hq
            exact ha0notin (by rw [hq] at hat_; exact hat_)
          · intro k n hkn
            by_cases hk0 : k = a0
            · rw [hk0] at hkn
              rw [hlk2_a0] at hkn
              injection hkn with hkn
              rw [← hkn]
              refine ⟨by simp, ?_⟩
              show n0.prev ≠ some a0
              rw [hp0]
              simp
            · have hkn' : hlookup (hupdate (hupdate s.heap a0
                  fun n => { n with next := none }) a1
                  fun n => { n with prev := none }) k = some n := hkn
              have hkmem : k ∈ a1 :: rest' := by
                have hksome : (hlookup s.heap k).isSome = true := by
                  by_cases hk1 : k = a1
                  · rw [hk1, hn1]
                    rfl
                  · rw [← hlk2 k hk0 hk1, hkn']
                    rfl
                have := (hdom k).mp hksome
                rcases List.mem_cons.mp this with hq | hq
                · exact absurd hq hk0
                · exact hq
              have hlinks := dllSeg_links _ _ _ _ _ _ _ hch k hkmem n hkn'
              constructor
              · intro hq
                rcases hlinks.1 a0 hq with hq' | hq'
                · exact absurd hq'.symm (by simp)
                · exact ha0notin hq'
              · intro hq
                rcases hlinks.2 a0 hq with hq' | hq'
                · exact absurd hq'.symm (by simp)
                · exact ha0notin hq'
        have hcomp : pop_front s = some
            ({ heap := hremove (hupdate (hupdate s.heap a0 fun n => { n with next := none }) a1
                 fun n => { n with prev := none }) a0,
               head := some a1, tail := s.tail, fresh := s.fresh }, some x) := by
          simp [pop_front, hc, hn0, hc1, ha1, hlk1a1, hso, he0]
        refine ⟨_, hcomp, ?_⟩
        refine ⟨a1 :: rest', ?_, hnd1, ?_, ?_, ?_⟩
        · show dllSeg (hremove (hupdate (hupdate s.heap a0 fun n => { n with next := none }) a1
              fun n => { n with prev := none }) a0)
            none (some a1) s.tail none (a1 :: rest') (x1 :: l'')
          refine dllSeg_frame _ _ _ _ _ _ _ _ ?_ hch
          intro b hb
          have hb0 : ¬ b = a0 := fun hq => ha0notin (by rw [← hq]; exact hb)
          rw [hlookup_hremove, if_neg hb0]
        · intro b
          show (hlookup (hremove (hupdate (hupdate s.heap a0 fun n => { n with next := none }) a1
              fun n => { n with prev := none }) a0) b).isSome = true ↔ b ∈ a1 :: rest'
          rw [hlookup_hremove]
          by_cases hb0 : b = a0
          · rw [if_pos hb0]
            simp only [Option.isSome_none, Bool.false_eq_true, false_iff]
            rw [hb0]
            exact ha0notin
          · rw [if_neg hb0]
            by_cases hb1 : b = a1
            · rw [hb1, hlk2_a1]
              simp
            · rw [hlk2 b hb0 hb1, hdom b]
              constructor
              · intro hmem
                rcases List.mem_cons.mp hmem with hq | hq
                · exact absurd hq hb0
                · exact hq
              · intro hmem
                exact List.mem_cons_of_mem _ hmem
        · intro b hb
          exact hlt b (List.mem_cons_of_mem _ hb)
        · show ((hremove (hupdate (hupdate s.heap a0 fun n => { n with next := none }) a1
            fun n => { n with prev := none }) a0).map Prod.fst).Nodup
          exact hremove_keys_nodup _ _ hkeys2


/-! ### Back operations via the mirror -/

theorem mirror_fun_prev_some (c : Option Nat) :
    (fun n : Node α => mirrorNode ((fun m : Node α => { m with prev := c }) (mirrorNode n)))
      = fun n : Node α => { n with next := c } :=
  funext fun _ => rfl

theorem mirror_fun_next_some (c : Option Nat) :
    (fun n : Node α => mirrorNode ((fun m : Node α => { m with next := c }) (mirrorNode n)))
      = fun n : Node α => { n with prev := c } :=
  funext fun _ => rfl

theorem push_back_eq_mirror (s : DList α) (v : α) :
    push_back s v = (push_front (mirror s) v).map mirror := by
  obtain ⟨h0, hd0, tl0, f0⟩ := s
  cases tl0 with
  | none =>
    simp [push_back, push_front, mirror, mmap_cons, mmap_mmap, mirrorNode]
  | some ot =>
    cases hl : hlookup h0 ot with
    | none =>
      simp [push_back, push_front, mirror, hlookup_mmap, hl]
    | some n =>
      have hmm1 : mmap (hupdate (mmap h0) ot fun m => { m with prev := some f0 })
          = hupdate h0 ot fun m => { m with next := some f0 } := by
        rw [mmap_hupdate, mirror_fun_prev_some, mmap_mmap]
      simp [push_back, push_front, mirror, hlookup_mmap, hl, mmap_cons, hmm1, mirrorNode]

theorem pop_back_eq_mirror (s : DList α) :
    pop_back s = (pop_front (mirror s)).map fun p => (mirror p.1, p.2) := by
  obtain ⟨h0, hd0, tl0, f0⟩ := s
  cases tl0 with
  | none =>
    simp [pop_back, pop_front, mirror, mmap_mmap]
  | some ot =>
    cases hl : hlookup h0 ot with
    | none =>
      simp [pop_back, pop_front, mirror, hlookup_mmap, hl]
    | some n =>
      have hmm1 : mmap (hupdate h0 ot fun m => { m with prev := none })
          = hupdate (mmap h0) ot fun m => { m with next := none } := by
        rw [mmap_hupdate, mirror_fun_prev_some]
      cases hp : n.prev with
      | none =>
        have hrec : DList.mk (hupdate (mmap h0) ot fun m => { m with next := none })
              none none f0
            = mirror (DList.mk (hupdate h0 ot fun m => { m with prev := none })
              none none f0) := by
          simp [mirror, hmm1]
        have hso_eq : soleOwner (DList.mk (hupdate (mmap h0) ot
              fun m => { m with next := none }) none none f0) ot
            = soleOwner (DList.mk (hupdate h0 ot
              fun m => { m with prev := none }) none none f0) ot := by
          rw [hrec, soleOwner_mirror]
        cases hsoc : soleOwner (DList.mk (hupdate h0 ot
            fun m => { m with prev := none }) none none f0) ot with
        | false =>
          simp [pop_back, pop_front, mirror, hlookup_mmap, hl, mirrorNode, hp,
                hso_eq, hsoc]
        | true =>
          have hrem : mmap (hremove (hupdate (mmap h0) ot fun m => { m with next := none }) ot)
              = hremove (hupdate h0 ot fun m => { m with prev := none }) ot := by
            rw [← hmm1, ← mmap_hremove, mmap_mmap]
          simp [pop_back, pop_front, mirror, hlookup_mmap, hl, mirrorNode, hp,
                hso_eq, hsoc, hrem]
      | some nt =>
        by_cases hnt : nt = ot
        · simp [pop_back, pop_front, mirror, hlookup_mmap, hl, mirrorNode, hp, hnt]
        · have hlk1 : hlookup (hupdate (mmap h0) ot fun m => { m with next := none }) nt
              = (hlookup h0 nt).map mirrorNode := by
            rw [hlookup_hupdate, if_neg hnt, hlookup_mmap]
          have hlk1b : hlookup (hupdate h0 ot fun m => { m with prev := none }) nt
              = hlookup h0 nt := by
            rw [hlookup_hupdate, if_neg hnt]
          cases hl2 : hlookup h0 nt with
          | none =>
            simp [pop_back, pop_front, mirror, hlookup_mmap, hl, mirrorNode, hp, hnt,
                  hlk1, hlk1b, hl2]
          | some n2 =>
            have hmm2 : mmap (hupdate (hupdate h0 ot fun m => { m with prev := none }) nt
                  fun m => { m with next := none })
                = hupdate (hupdate (mmap h0) ot fun m => { m with next := none }) nt
                  fun m => { m with prev := none } := by
              rw [mmap_hupdate, mirror_fun_next_some, hmm1]
            have hrec : DList.mk (hupdate (hupdate (mmap h0) ot
                  fun m => { m with next := none }) nt fun m => { m with prev := none })
                  (some nt) hd0 f0
                = mirror (DList.mk (hupdate (hupdate h0 ot
                  fun m => { m with prev := none }) nt fun m => { m with next := none })
                  hd0 (some nt) f0) := by
              simp [mirror, hmm2]
            have hso_eq : soleOwner (DList.mk (hupdate (hupdate (mmap h0) ot
                  fun m => { m with next := none }) nt fun m => { m with prev := none })
                  (some nt) hd0 f0) ot
                = soleOwner (DList.mk (hupdate (hupdate h0 ot
                  fun m => { m with prev := none }) nt fun m => { m with next := none })
                  hd0 (some nt) f0) ot := by
              rw [hrec, soleOwner_mirror]
            cases hsoc : soleOwner (DList.mk (hupdate (hupdate h0 ot
                fun m => { m with prev := none }) nt fun m => { m with next := none })
                hd0 (some nt) f0) ot with
            | false =>
              simp [pop_back, pop_front, mirror, hlookup_mmap, hl, mirrorNode, hp, hnt,
                    hlk1, hlk1b, hl2, hso_eq, hsoc]
            | true =>
              have hrem : mmap (hremove (hupdate (hupdate (mmap h0) ot
                    fun m => { m with next := none }) nt fun m => { m with prev := none }) ot)
                  = hremove (hupdate (hupdate h0 ot fun m => { m with prev := none }) nt
                    fun m => { m with next := none }) ot := by
                rw [← hmm2, ← mmap_hremove, mmap_mmap]
              simp [pop_back, pop_front, mirror, hlookup_mmap, hl, mirrorNode, hp, hnt,
                    hlk1, hlk1b, hl2, hso_eq, hsoc, hrem]

theorem peek_back_eq_mirror (s : DList α) :
    (peek_back s).2 = (peek_front (mirror s)).2 := by
  obtain ⟨h0, hd0, tl0, f0⟩ := s
  cases tl0 with
  | none => rfl
  | some ot =>
    show (hlookup h0 ot).map (fun n => n.elem)
        = (hlookup (mmap h0) ot).map fun n => n.elem
    rw [hlookup_mmap]
    cases hl : hlookup h0 ot with
    | none => rfl
    | some n => rfl

theorem push_back_models (s : DList α) (l : List α) (v : α) (hm : Models s l) :
    ∃ s', push_back s v = some s' ∧ Models s' (l ++ [v]) := by
  obtain ⟨t, ht, hmt⟩ := push_front_models (mirror s) l.reverse v (models_mirror _ _ hm)
  refine ⟨mirror t, ?_, ?_⟩
  · rw [push_back_eq_mirror, ht]
    rfl
  · have h2 := models_mirror _ _ hmt
    rw [List.reverse_cons, List.reverse_reverse] at h2
    exact h2

theorem pop_back_nil (s : DList α) (hm : Models s []) : pop_back s = some (s, none) := by
  rw [pop_back_eq_mirror, pop_front_nil (mirror s) (models_mirror _ _ hm)]
  show some (mirror (mirror s), (none : Option α)) = some (s, none)
  rw [mirror_mirror]

theorem pop_back_models (s : DList α) (x : α) (l' : List α) (hm : Models s (l' ++ [x])) :
    ∃ s', pop_back s = some (s', some x) ∧ Models s' l' := by
  have hmm : Models (mirror s) (x :: l'.reverse) := by
    have := models_mirror _ _ hm
    rw [List.reverse_append] at this
    simpa using this
  obtain ⟨t, ht, hmt⟩ := pop_front_models (mirror s) x l'.reverse hmm
  refine ⟨mirror t, ?_, ?_⟩
  · rw [pop_back_eq_mirror, ht]
    rfl
  · have h2 := models_mirror _ _ hmt
    rw [List.reverse_reverse] at h2
    exact h2

/-! ### Peek specifications -/

theorem peek_front_spec (s : DList α) (l : List α) (hm : Models s l) :
    (peek_front s).2 = l.head? := by
  obtain ⟨as, hseg, -, -, -, -⟩ := hm
  cases as with
  | nil =>
    cases l with
    | nil =>
      have hh : s.head = none := hseg.1
      simp [peek_front, hh]
    | cons x l => exact absurd hseg (dllSeg_nil_cons _ _ _ _ _ _ _)
  | cons a0 rest =>
    cases l with
    | nil => exact absurd hseg (dllSeg_cons_nil _ _ _ _ _ _ _)
    | cons x l' =>
      obtain ⟨hc, n0, hn0, he0, -, -⟩ := hseg
      simp [peek_front, hc, hn0, he0]

theorem peek_back_spec (s : DList α) (l : List α) (hm : Models s l) :
    (peek_back s).2 = l.getLast? := by
  rw [peek_back_eq_mirror, peek_front_spec (mirror s) l.reverse (models_mirror _ _ hm)]
  exact List.head?_reverse l

/-! ### Iterated-operation lemmas -/

theorem pushFrontList_models (vs : List α) (s : DList α) (l : List α) (hm : Models s l) :
    ∃ s', pushFrontList s vs = some s' ∧ Models s' (vs.reverse ++ l) := by
  induction vs generalizing s l with
  | nil => exact ⟨s, rfl, by simpa using hm⟩
  | cons v vs ih =>
    obtain ⟨s1, h1, hm1⟩ := push_front_models s l v hm
    obtain ⟨s2, h2, hm2⟩ := ih s1 (v :: l) hm1
    refine ⟨s2, ?_, ?_⟩
    · show (push_front s v).bind _ = some s2
      rw [h1]
      exact h2
    · rw [List.reverse_cons, List.append_assoc]
      simpa using hm2

theorem pushBackList_models (vs : List α) (s : DList α) (l : List α) (hm : Models s l) :
    ∃ s', pushBackList s vs = some s' ∧ Models s' (l ++ vs) := by
  induction vs generalizing s l with
  | nil => exact ⟨s, rfl, by simpa using hm⟩
  | cons v vs ih =>
    obtain ⟨s1, h1, hm1⟩ := push_back_models s l v hm
    obtain ⟨s2, h2, hm2⟩ := ih s1 (l ++ [v]) hm1
    refine ⟨s2, ?_, ?_⟩
    · show (push_back s v).bind _ = some s2
      rw [h1]
      exact h2
    · rw [show l ++ v :: vs = (l ++ [v]) ++ vs by simp]
      exact hm2

theorem popFrontN_models (l : List α) (s : DList α) (hm : Models s l) :
    ∃ s', popFrontN s l.length = some (s', l.map some) ∧ Models s' [] := by
  induction l generalizing s with
  | nil => exact ⟨s, rfl, hm⟩
  | cons x l ih =>
    obtain ⟨s1, h1, hm1⟩ := pop_front_models s x l hm
    obtain ⟨s2, h2, hm2⟩ := ih s1 hm1
    refine ⟨s2, ?_, hm2⟩
    show (pop_front s).bind _ = _
    rw [h1]
    show (popFrontN s1 l.length).map _ = _
    rw [h2]
    rfl

theorem popBackN_models (r : List α) (s : DList α) (hm : Models s r.reverse) :
    ∃ s', popBackN s r.length = some (s', r.map some) ∧ Models s' [] := by
  induction r generalizing s with
  | nil => exact ⟨s, rfl, hm⟩
  | cons x r ih =>
    have hm' : Models s (r.reverse ++ [x]) := by
      rw [List.reverse_cons] at hm
      exact hm
    obtain ⟨s1, h1, hm1⟩ := pop_back_models s x r.reverse hm'
    obtain ⟨s2, h2, hm2⟩ := ih s1 hm1
    refine ⟨s2, ?_, hm2⟩
    show (pop_back s).bind _ = _
    rw [h1]
    show (popBackN s1 r.length).map _ = _
    rw [h2]
    rfl

theorem drain_empty (ops : List Bool) (s : DList α) (hm : Models s []) :
    drain s ops = some (s, List.replicate ops.length none) := by
  induction ops with
  | nil => rfl
  | cons e es ih =>
    cases e with
    | false =>
      show (pop_back s).bind _ = _
      rw [pop_back_nil s hm]
      show (drain s es).map _ = _
      rw [ih]
      rfl
    | true =>
      show (pop_front s).bind _ = _
      rw [pop_front_nil s hm]
      show (drain s es).map _ = _
      rw [ih]
      rfl

theorem drain_models (ops : List Bool) (s : DList α) (l : List α) (hm : Models s l)
    (hlen : ops.length = l.length) :
    ∃ (s' : DList α) (res : List α),
      drain s ops = some (s', res.map some) ∧ res.Perm l ∧ Models s' [] := by
  induction ops generalizing s l with
  | nil =>
    cases l with
    | nil => exact ⟨s, [], rfl, List.Perm.refl [], hm⟩
    | cons x l => exact absurd hlen (by simp)
  | cons e es ih =>
    cases e with
    | true =>
      cases l with
      | nil => exact absurd hlen (by simp)
      | cons x lt =>
        obtain ⟨s1, h1, hm1⟩ := pop_front_models s x lt hm
        obtain ⟨s2, res, h2, hperm, hm2⟩ := ih s1 lt hm1 (by simpa using hlen)
        refine ⟨s2, x :: res, ?_, hperm.cons x, hm2⟩
        show (pop_front s).bind _ = _
        rw [h1]
        show (drain s1 es).map _ = _
        rw [h2]
        rfl
    | false =>
      have hlne : l ≠ [] := by
        intro hq
        rw [hq] at hlen
        simp at hlen
      have hdec : l.dropLast ++ [l.getLast hlne] = l := List.dropLast_append_getLast hlne
      have hm' : Models s (l.dropLast ++ [l.getLast hlne]) := by rw [hdec]; exact hm
      obtain ⟨s1, h1, hm1⟩ := pop_back_models s (l.getLast hlne) l.dropLast hm'
      have hlen' : es.length = l.dropLast.length := by
        rw [List.length_dropLast]
        have hll : es.length + 1 = l.length := by simpa using hlen
        omega
      obtain ⟨s2, res, h2, hperm, hm2⟩ := ih s1 l.dropLast hm1 hlen'
      refine ⟨s2, l.getLast hlne :: res, ?_, ?_, hm2⟩
      · show (pop_back s).bind _ = _
        rw [h1]
        show (drain s1 es).map _ = _
        rw [h2]
        rfl
      · have hp1 : (l.getLast hlne :: res).Perm (l.getLast hlne :: l.dropLast) :=
          hperm.cons _
        have hp2 : (l.getLast hlne :: l.dropLast).Perm (l.dropLast ++ [l.getLast hlne]) :=
          (List.perm_append_singleton _ _).symm
        rw [hdec] at hp2
        exact hp1.trans hp2

theorem models_nil_heap_eq_nil (s : DList α) (hm : Models s []) : s.heap = [] := by
  obtain ⟨as, hseg, -, hdom, -, -⟩ := hm
  cases as with
  | cons a as => exact absurd hseg (dllSeg_cons_nil _ _ _ _ _ _ _)
  | nil =>
    cases hheap : s.heap with
    | nil => rfl
    | cons p t =>
      exfalso
      obtain ⟨k, n⟩ := p
      have hk := (hdom k).mp (by rw [hheap, hlookup_cons, if_pos rfl]; rfl)
      exact List.not_mem_nil k hk

theorem drop_fuel_models (l : List α) (s : DList α) (hm : Models s l) :
    ∃ s', drop_fuel (l.length + 1) s = some s'
      ∧ popFrontN s l.length = some (s', l.map some)
      ∧ pop_front s' = some (s', none) ∧ s'.heap = [] ∧ Models s' [] := by
  induction l generalizing s with
  | nil =>
    refine ⟨s, ?_, rfl, pop_front_nil s hm, models_nil_heap_eq_nil s hm, hm⟩
    show (pop_front s).bind _ = some s
    rw [pop_front_nil s hm]
    rfl
  | cons x l ih =>
    obtain ⟨s1, h1, hm1⟩ := pop_front_models s x l hm
    obtain ⟨s2, hd2, hn2, hp2, hh2, hm2⟩ := ih s1 hm1
    refine ⟨s2, ?_, ?_, hp2, hh2, hm2⟩
    · show (pop_front s).bind _ = some s2
      rw [h1]
      exact hd2
    · show (pop_front s).bind _ = _
      rw [h1]
      show (popFrontN s1 l.length).map _ = _
      rw [hn2]
      rfl

theorem models_head_iff (s : DList α) (l : List α) (hm : Models s l) :
    (s.head = none ↔ l = []) ∧ (s.tail = none ↔ l = []) := by
  obtain ⟨as, hseg, -, -, -, -⟩ := hm
  cases as with
  | nil =>
    cases l with
    | nil => exact ⟨⟨fun _ => rfl, fun _ => hseg.1⟩, ⟨fun _ => rfl, fun _ => hseg.2⟩⟩
    | cons x l => exact absurd hseg (dllSeg_nil_cons _ _ _ _ _ _ _)
  | cons a as =>
    cases l with
    | nil => exact absurd hseg (dllSeg_cons_nil _ _ _ _ _ _ _)
    | cons x l =>
      have hc : s.head = some a := hseg.1
      obtain ⟨at_, -, htl⟩ := dllSeg_last_mem _ _ _ _ _ _ _ hseg (by simp)
      constructor
      · constructor
        · intro hq
          rw [hc] at hq
          exact absurd hq (by simp)
        · intro hq
          exact absurd hq (by simp)
      · constructor
        · intro hq
          rw [htl] at hq
          exact absurd hq (by simp)
        · intro hq
          exact absurd hq (by simp)

theorem models_exampleOne : Models exampleOne [1] := by
  refine ⟨[0], ⟨rfl, ⟨1, none, none⟩, ?_, rfl, rfl, rfl, rfl⟩, by simp, ?_, ?_, by simp [exampleOne]⟩
  · rw [show exampleOne.heap = [(0, ⟨1, none, none⟩)] from rfl, hlookup_cons, if_pos rfl]
  · intro a
    show (hlookup [(0, ⟨1, none, none⟩)] a).isSome = true ↔ a ∈ [0]
    rw [hlookup_cons]
    by_cases h0 : (0 : ℕ) = a
    · simp [h0]
    · have ha0 : ¬ a = 0 := fun hq => h0 hq.symm
      simp [h0, ha0, hlookup]
  · intro a ha
    rw [List.mem_singleton] at ha
    rw [ha]
    exact Nat.one_pos

/-- Writing through the `peek_front_mut` view replaces the head element
and nothing else. -/
theorem models_write_head (s : DList α) (x w : α) (l : List α) (a : Nat)
    (hm : Models s (x :: l)) (ha : s.head = some a) :
    Models (write_view s a w) (w :: l) := by
  obtain ⟨as, hseg, hnd, hdom, hlt, hknd⟩ := hm
  cases as with
  | nil => exact absurd hseg (dllSeg_nil_cons _ _ _ _ _ _ _)
  | cons a0 rest =>
    obtain ⟨hc, n0, hn0, he0, hp0, hrest⟩ := hseg
    have ha0 : a = a0 := by
      rw [hc] at ha
      injection ha with hq
      exact hq.symm
    subst ha0
    refine ⟨a :: rest, ?_, hnd, ?_, hlt, ?_⟩
    · refine ⟨hc, { n0 with elem := w }, ?_, rfl, hp0, ?_⟩
      · show hlookup (hupdate s.heap a fun n => { n with elem := w }) a = _
        rw [hlookup_hupdate, if_pos rfl, hn0]
        rfl
      · show dllSeg _ (some a) n0.next s.tail none rest l
        refine dllSeg_frame s.heap _ _ _ _ _ _ _ ?_ hrest
        intro b hb
        have hba : ¬ b = a := by
          intro hq
          exact (List.nodup_cons.mp hnd).1 (by rw [← hq]; exact hb)
        show hlookup (hupdate s.heap a fun n => { n with elem := w }) b = _
        rw [hlookup_hupdate, if_neg hba]
    · intro b
      show (hlookup (hupdate s.heap a fun n => { n with elem := w }) b).isSome = true ↔ _
      rw [isSome_hlookup_hupdate]
      exact hdom b
    · show ((hupdate s.heap a fun n => { n with elem := w }).map Prod.fst).Nodup
      rw [hupdate_keys]
      exact hknd

/-! ### The claims -/

/-- C1: for every `n` and values `v1..vn`, pushing them with
`push_front` and then calling `pop_front` `n` times returns the values
in reverse order `vn..v1`, each wrapped as present (`some`); and
symmetrically, pushing them with `push_back` and calling `pop_back` `n`
times also returns `vn..v1`, each present. -/
theorem claim_C1 (α : Type) (vs : List α) :
    ∃ (s₁ t₁ s₂ t₂ : DList α),
      pushFrontList (new : DList α) vs = some s₁
      ∧ popFrontN s₁ vs.length = some (t₁, vs.reverse.map some)
      ∧ pushBackList (new : DList α) vs = some s₂
      ∧ popBackN s₂ vs.length = some (t₂, vs.reverse.map some) := by
  obtain ⟨s₁, h1, hm1⟩ := pushFrontList_models vs new [] models_new
  rw [List.append_nil] at hm1
  obtain ⟨t₁, h1n, -⟩ := popFrontN_models vs.reverse s₁ hm1
  obtain ⟨s₂, h2, hm2⟩ := pushBackList_models vs new [] models_new
  rw [List.nil_append] at hm2
  have hm2' : Models s₂ vs.reverse.reverse := by
    rw [List.reverse_reverse]
    exact hm2
  obtain ⟨t₂, h2n, -⟩ := popBackN_models vs.reverse s₂ hm2'
  refine ⟨s₁, t₁, s₂, t₂, h1, ?_, h2, ?_⟩
  · rw [← List.length_reverse vs]
    exact h1n
  · rw [← List.length_reverse vs]
    exact h2n

/-- C2: every public operation preserves the structural invariant
`Models` (there is an address chain `as` linking `head` to `tail`
through `next`, with `prev` the exact reverse, `head.prev` and
`tail.next` absent, no address repeated — no cycle, every live node
visited exactly once — and `head = none ↔ tail = none ↔ empty`).
`new` establishes it; `push_front`/`push_back`/`pop_front`/`pop_back`
preserve it; `peek_front`/`peek_back`/`peek_front_mut`/`peek_back_mut`
take `&self` and leave the state untouched. -/
theorem claim_C2 (α : Type) (s : DList α) (l : List α) (v : α) (hm : Models s l) :
    Models (new : DList α) []
    ∧ ((s.head = none ↔ l = []) ∧ (s.tail = none ↔ l = []))
    ∧ (∃ s', push_front s v = some s' ∧ Models s' (v :: l))
    ∧ (∃ s', push_back s v = some s' ∧ Models s' (l ++ [v]))
    ∧ (∃ (s' : DList α) (r : Option α) (l' : List α),
        pop_front s = some (s', r) ∧ Models s' l')
    ∧ (∃ (s' : DList α) (r : Option α) (l' : List α),
        pop_back s = some (s', r) ∧ Models s' l')
    ∧ (peek_front s).1 = s ∧ (peek_back s).1 = s
    ∧ (peek_front_mut s).1 = s ∧ (peek_back_mut s).1 = s := by
  refine ⟨models_new, models_head_iff s l hm, push_front_models s l v hm,
    push_back_models s l v hm, ?_, ?_, rfl, rfl, rfl, rfl⟩
  · cases l with
    | nil => exact ⟨s, none, [], pop_front_nil s hm, hm⟩
    | cons x lt =>
      obtain ⟨s', h, hm'⟩ := pop_front_models s x lt hm
      exact ⟨s', some x, lt, h, hm'⟩
  · rcases List.eq_nil_or_concat l with rfl | ⟨lt, x, rfl⟩
    · exact ⟨s, none, [], pop_back_nil s hm, hm⟩
    · rw [List.concat_eq_append] at hm
      obtain ⟨s', h, hm'⟩ := pop_back_models s x lt hm
      exact ⟨s', some x, lt, h, hm'⟩

theorem claim_C2_witness :
    Models (new : DList ℕ) []
    ∧ ((exampleOne.head = none ↔ ([1] : List ℕ) = []) ∧
       (exampleOne.tail = none ↔ ([1] : List ℕ) = []))
    ∧ (∃ s', push_front exampleOne 7 = some s' ∧ Models s' (7 :: [1]))
    ∧ (∃ s', push_back exampleOne 7 = some s' ∧ Models s' ([1] ++ [7]))
    ∧ (∃ (s' : DList ℕ) (r : Option ℕ) (l' : List ℕ),
        pop_front exampleOne = some (s', r) ∧ Models s' l')
    ∧ (∃ (s' : DList ℕ) (r : Option ℕ) (l' : List ℕ),
        pop_back exampleOne = some (s', r) ∧ Models s' l')
    ∧ (peek_front exampleOne).1 = exampleOne ∧ (peek_back exampleOne).1 = exampleOne
    ∧ (peek_front_mut exampleOne).1 = exampleOne
    ∧ (peek_back_mut exampleOne).1 = exampleOne :=
  claim_C2 ℕ exampleOne [1] 7 models_exampleOne

/-- C3: on any reachable (well-formed) deque with no view outstanding at
call entry, no public mutating operation panics: `push_front`,
`push_back`, `pop_front`, and `pop_back` all return `some`.  Since the
model returns `none` exactly where the code would panic (a conflicting
`borrow_mut` on an aliased cell, or `Rc::try_unwrap(..).ok().unwrap()`
finding the detached node not uniquely owned), `isSome` states that
every exclusive acquisition succeeds and the loud-failure branch is
unreachable. -/
theorem claim_C3 (α : Type) (s : DList α) (l : List α) (v : α) (hm : Models s l) :
    (push_front s v).isSome = true ∧ (push_back s v).isSome = true
    ∧ (pop_front s).isSome = true ∧ (pop_back s).isSome = true := by
  obtain ⟨s1, h1, -⟩ := push_front_models s l v hm
  obtain ⟨s2, h2, -⟩ := push_back_models s l v hm
  refine ⟨by rw [h1]; rfl, by rw [h2]; rfl, ?_, ?_⟩
  · cases l with
    | nil =>
      rw [pop_front_nil s hm]
      rfl
    | cons x lt =>
      obtain ⟨s', h, -⟩ := pop_front_models s x lt hm
      rw [h]
      rfl
  · rcases List.eq_nil_or_concat l with rfl | ⟨lt, x, rfl⟩
    · rw [pop_back_nil s hm]
      rfl
    · rw [List.concat_eq_append] at hm
      obtain ⟨s', h, -⟩ := pop_back_models s x lt hm
      rw [h]
      rfl

theorem claim_C3_witness :
    (push_front exampleOne 2).isSome = true ∧ (push_back exampleOne 2).isSome = true
    ∧ (pop_front exampleOne).isSome = true ∧ (pop_back exampleOne).isSome = true :=
  claim_C3 ℕ exampleOne [1] 2 models_exampleOne

/-- C4: the consuming iterator's `next()` is exactly `pop_front` on the
wrapped deque and `next_back()` exactly `pop_back` (definitional
equalities); iteration is exhausted precisely when the wrapped deque is
empty (empty yields the done signal *with the iterator unchanged*, so
every subsequent call on either end stays done; non-empty yields a
present element); and the concrete scenario — push_front 1, 2, 3 then
next, next_back, next, next_back, next — yields 3, 1, 2, done, done. -/
theorem claim_C4 (α : Type) (it : IntoIter α) (l : List α) (hm : Models it.list l) :
    it.next = ((pop_front it.list).map fun p => (⟨p.1⟩, p.2))
    ∧ it.next_back = ((pop_back it.list).map fun p => (⟨p.1⟩, p.2))
    ∧ (l = [] → it.next = some (it, none) ∧ it.next_back = some (it, none))
    ∧ (∀ x lt, l = x :: lt →
        ∃ it' : IntoIter α, it.next = some (it', some x) ∧ Models it'.list lt)
    ∧ (∀ x lt, l = lt ++ [x] →
        ∃ it' : IntoIter α, it.next_back = some (it', some x) ∧ Models it'.list lt)
    ∧ iterScenario = some [some 3, some 1, some 2, none, none] := by
  refine ⟨rfl, rfl, ?_, ?_, ?_, rfl⟩
  · intro hl
    subst hl
    constructor
    · show (pop_front it.list).map _ = _
      rw [pop_front_nil it.list hm]
      rfl
    · show (pop_back it.list).map _ = _
      rw [pop_back_nil it.list hm]
      rfl
  · intro x lt hl
    subst hl
    obtain ⟨s', h, hm'⟩ := pop_front_models it.list x lt hm
    refine ⟨⟨s'⟩, ?_, hm'⟩
    show (pop_front it.list).map _ = _
    rw [h]
    rfl
  · intro x lt hl
    subst hl
    obtain ⟨s', h, hm'⟩ := pop_back_models it.list x lt hm
    refine ⟨⟨s'⟩, ?_, hm'⟩
    show (pop_back it.list).map _ = _
    rw [h]
    rfl

theorem claim_C4_witness :
    (into_iter exampleOne).next
      = ((pop_front (into_iter exampleOne).list).map fun p => (⟨p.1⟩, p.2))
    ∧ (into_iter exampleOne).next_back
      = ((pop_back (into_iter exampleOne).list).map fun p => (⟨p.1⟩, p.2))
    ∧ (([1] : List ℕ) = [] → (into_iter exampleOne).next = some (into_iter exampleOne, none)
        ∧ (into_iter exampleOne).next_back = some (into_iter exampleOne, none))
    ∧ (∀ x lt, ([1] : List ℕ) = x :: lt →
        ∃ it' : IntoIter ℕ, (into_iter exampleOne).next = some (it', some x)
          ∧ Models it'.list lt)
    ∧ (∀ x lt, ([1] : List ℕ) = lt ++ [x] →
        ∃ it' : IntoIter ℕ, (into_iter exampleOne).next_back = some (it', some x)
          ∧ Models it'.list lt)
    ∧ iterScenario = some [some 3, some 1, some 2, none, none] :=
  claim_C4 ℕ (into_iter exampleOne) [1] models_exampleOne

/-- C5: draining a well-formed deque of size `n` by any interleaving of
`n` `pop_front`/`pop_back` calls returns a present element each time —
`n` elements in all, each element of the deque exactly once (the results
are a permutation of the contents) — and once drained, `pop_front`,
`pop_back`, `peek_front` and `peek_back` report empty forever (any
further drain sequence returns only absent results and leaves the state
fixed). -/
theorem claim_C5 (α : Type) (s : DList α) (l : List α) (ops : List Bool)
    (hm : Models s l) (hlen : ops.length = l.length) :
    ∃ (s' : DList α) (res : List α),
      drain s ops = some (s', res.map some)
      ∧ res.Perm l
      ∧ (∀ more : List Bool, drain s' more = some (s', List.replicate more.length none))
      ∧ pop_front s' = some (s', none) ∧ pop_back s' = some (s', none)
      ∧ (peek_front s').2 = none ∧ (peek_back s').2 = none := by
  obtain ⟨s', res, hd, hperm, hm'⟩ := drain_models ops s l hm hlen
  refine ⟨s', res, hd, hperm, fun more => drain_empty more s' hm',
    pop_front_nil s' hm', pop_back_nil s' hm', ?_, ?_⟩
  · rw [peek_front_spec s' [] hm']
    rfl
  · rw [peek_back_spec s' [] hm']
    rfl

theorem claim_C5_witness :
    ∃ (s' : DList ℕ) (res : List ℕ),
      drain exampleOne [false] = some (s', res.map some)
      ∧ res.Perm [1]
      ∧ (∀ more : List Bool, drain s' more = some (s', List.replicate more.length none))
      ∧ pop_front s' = some (s', none) ∧ pop_back s' = some (s', none)
      ∧ (peek_front s').2 = none ∧ (peek_back s').2 = none :=
  claim_C5 ℕ exampleOne [1] [false] models_exampleOne rfl

/-- C6: on a non-empty well-formed deque, `peek_front_mut` grants a
write view onto the head element; writing `w` through it and then
calling `pop_front` returns `w` (present). -/
theorem claim_C6 (α : Type) (s : DList α) (x w : α) (l : List α) (hm : Models s (x :: l)) :
    ∃ (a : Nat) (s' : DList α),
      (peek_front_mut s).2 = some a
      ∧ pop_front (write_view (peek_front_mut s).1 a w) = some (s', some w)
      ∧ Models s' l := by
  cases hh : s.head with
  | none =>
    exfalso
    have := (models_head_iff s (x :: l) hm).1.mp hh
    simp at this
  | some a =>
    have hwm := models_write_head s x w l a hm hh
    obtain ⟨s', hp, hm'⟩ := pop_front_models (write_view s a w) w l hwm
    exact ⟨a, s', hh, hp, hm'⟩

theorem claim_C6_witness :
    ∃ (a : Nat) (s' : DList ℕ),
      (peek_front_mut exampleOne).2 = some a
      ∧ pop_front (write_view (peek_front_mut exampleOne).1 a 42) = some (s', some 42)
      ∧ Models s' [] :=
  claim_C6 ℕ exampleOne 1 42 [] models_exampleOne

/-- C7: `peek_front` and `peek_back` take `&self`, so they leave the
deque entirely unchanged (the state component of the result is the input
state); each returns the absent signal iff the deque is empty, and on a
non-empty deque `peek_front` views the head element (`l.head?`) and
`peek_back` the tail element (`l.getLast?`). -/
theorem claim_C7 (α : Type) (s : DList α) (l : List α) (hm : Models s l) :
    (peek_front s).1 = s ∧ (peek_back s).1 = s
    ∧ (peek_front s).2 = l.head? ∧ (peek_back s).2 = l.getLast?
    ∧ ((peek_front s).2 = none ↔ l = []) ∧ ((peek_back s).2 = none ↔ l = []) := by
  refine ⟨rfl, rfl, peek_front_spec s l hm, peek_back_spec s l hm, ?_, ?_⟩
  · rw [peek_front_spec s l hm]
    cases l <;> simp
  · rw [peek_back_spec s l hm]
    exact List.getLast?_eq_none_iff

theorem claim_C7_witness :
    (peek_front exampleOne).1 = exampleOne ∧ (peek_back exampleOne).1 = exampleOne
    ∧ (peek_front exampleOne).2 = ([1] : List ℕ).head?
    ∧ (peek_back exampleOne).2 = ([1] : List ℕ).getLast?
    ∧ ((peek_front exampleOne).2 = none ↔ ([1] : List ℕ) = [])
    ∧ ((peek_back exampleOne).2 = none ↔ ([1] : List ℕ) = []) :=
  claim_C7 ℕ exampleOne [1] models_exampleOne

/-- C8: destroying a well-formed deque (the `Drop` loop
`while pop_front().is_some() {}`, modelled by `drop_fuel`) has exactly
the effect of repeatedly calling `pop_front` and discarding the result
until empty: it terminates within `n + 1` iterations, its final state is
the state reached by `n` explicit `pop_front` calls which detach the
nodes head-to-tail (yielding the contents in order, each exactly once),
the loop's final probe returns the empty signal, and afterwards every
node has been released (the heap is empty). -/
theorem claim_C8 (α : Type) (s : DList α) (l : List α) (hm : Models s l) :
    ∃ s' : DList α,
      drop_fuel (l.length + 1) s = some s'
      ∧ popFrontN s l.length = some (s', l.map some)
      ∧ pop_front s' = some (s', none)
      ∧ s'.heap = [] ∧ Models s' [] :=
  drop_fuel_models l s hm

theorem claim_C8_witness :
    ∃ s' : DList ℕ,
      drop_fuel (([1] : List ℕ).length + 1) exampleOne = some s'
      ∧ popFrontN exampleOne ([1] : List ℕ).length = some (s', ([1] : List ℕ).map some)
      ∧ pop_front s' = some (s', none)
      ∧ s'.heap = [] ∧ Models s' [] :=
  claim_C8 ℕ exampleOne [1] models_exampleOne

/-- C9: from the empty deque, push_front 1, 2, 3; pop_front twice;
push_front 4, 5; then four more pop_front calls return
3, 2, 5, 4, 1, empty in that order — and the mirrored program using
push_back/pop_back with the same values returns 3, 2, 5, 4, 1, empty in
that order as well. -/
theorem claim_C9 :
    (runOps new [DequeOp.pf 1, DequeOp.pf 2, DequeOp.pf 3, DequeOp.popf, DequeOp.popf,
        DequeOp.pf 4, DequeOp.pf 5, DequeOp.popf, DequeOp.popf, DequeOp.popf,
        DequeOp.popf]).map Prod.snd
      = some [some 3, some 2, some 5, some 4, some 1, none]
    ∧ (runOps new [DequeOp.pb 1, DequeOp.pb 2, DequeOp.pb 3, DequeOp.popb, DequeOp.popb,
        DequeOp.pb 4, DequeOp.pb 5, DequeOp.popb, DequeOp.popb, DequeOp.popb,
        DequeOp.popb]).map Prod.snd
      = some [some 3, some 2, some 5, some 4, some 1, none] :=
  ⟨rfl, rfl⟩

/-- C10: on any well-formed deque representing `l`, `push_front v`
followed immediately by `pop_front` returns `v` (present) and leaves the
deque representing `l` again — the same elements in the same order —
and symmetrically `push_back v` followed by `pop_back` returns `v` and
leaves the deque representing `l`. -/
theorem claim_C10 (α : Type) (s : DList α) (l : List α) (v : α) (hm : Models s l) :
    ∃ s₁ s₂ s₃ s₄ : DList α,
      push_front s v = some s₁ ∧ pop_front s₁ = some (s₂, some v) ∧ Models s₂ l
      ∧ push_back s v = some s₃ ∧ pop_back s₃ = some (s₄, some v) ∧ Models s₄ l := by
  obtain ⟨s₁, h1, hm1⟩ := push_front_models s l v hm
  obtain ⟨s₂, h2, hm2⟩ := pop_front_models s₁ v l hm1
  obtain ⟨s₃, h3, hm3⟩ := push_back_models s l v hm
  obtain ⟨s₄, h4, hm4⟩ := pop_back_models s₃ v l hm3
  exact ⟨s₁, s₂, s₃, s₄, h1, h2, hm2, h3, h4, hm4⟩

theorem claim_C10_witness :
    ∃ s₁ s₂ s₃ s₄ : DList ℕ,
      push_front exampleOne 9 = some s₁ ∧ pop_front s₁ = some (s₂, some 9)
      ∧ Models s₂ [1]
      ∧ push_back exampleOne 9 = some s₃ ∧ pop_back s₃ = some (s₄, some 9)
      ∧ Models s₄ [1] :=
  claim_C10 ℕ exampleOne [1] 9 models_exampleOne

end BadSafeDeque
